import Mathlib

/-!
Verification of the dsaflow branch-graph resolution engine.

The definitions below are a shallow embedding of the Python sources:
  * `src/src/jf/git.py`    — reference-name model (`RefName`, `Kind`, `for_branch`)
  * `src/src/jf/repo.py`   — repository cache (`ref_abbrevs`, `resolve_shortcut`,
                             `commits`, `is_merged_into`, `branch_by_ref`)
  * `src/src/jf/branch.py` — logical-branch model (`Generic`)
  * `src/src/jf/config.py` — configuration store (`GitConfigHolder`) and schema
  * `src/src/jf/cmd/delete.py`, `src/src/jf/cmd/list.py` — merge-status classifiers
  * `src/src/jf/cmd/start.py` — template-driven branch creation

Python strings are modelled as `String`, operated on through their `List Char`
data so that every operation is structurally recursive and kernel-reducible.
`None`-able strings are modelled as `Option String`; where Python treats `''`
and `None` uniformly as falsy this is noted at the definition.
-/

namespace Dsaflow

/-- Python `s.startswith(p)`, via the underlying character lists. -/
def pyStartsWith (s p : String) : Bool :=
  p.data.isPrefixOf s.data

/-- Python `s.endswith(p)`, via the underlying character lists. -/
def pyEndsWith (s p : String) : Bool :=
  p.data.isSuffixOf s.data

/-- Python `s[n:]` for a nonnegative `n`, via the underlying character lists. -/
def pyDrop (s : String) (n : Nat) : String :=
  ⟨s.data.drop n⟩

/-- Python `len(s)`. -/
def pyLen (s : String) : Nat :=
  s.data.length

/-- Splits a character list at the first occurrence of `sep`; `none` when
`sep` does not occur.  Helper for `pyPartition`. -/
def splitFirst (sep : Char) : List Char → Option (List Char × List Char)
  | [] => none
  | c :: cs =>
    if c = sep then some ([], cs)
    else (splitFirst sep cs).map (fun p => (c :: p.1, p.2))

/-- Python `s.partition(sep)` for a single-character separator: the part
before the first `sep`, the separator, and the rest; `(s, '', '')` when
`sep` is absent. -/
def pyPartition (s : String) (sep : Char) : String × String × String :=
  match splitFirst sep s.data with
  | none => (s, "", "")
  | some (a, b) => (⟨a⟩, ⟨[sep]⟩, ⟨b⟩)

/- Reference-name prefixes, from `src/src/jf/git.py` lines 42-52. -/

/-- The five reference-namespace constants below carry the values of the
source constants defined in `src/src/jf/git.py` lines 42-47 (named there
with a `_PREFIX` suffix); the two suffix constants follow. -/
def HEAD_PFX : String := "refs/heads/"

def TAG_PFX : String := "refs/tags/"

def REMOTE_PFX : String := "refs/remotes/"

def GENERIC_PFX : String := "refs/"

def PATCH_PFX : String := "refs/patches/"

def STGIT_SUFFIX : String := ".stgit"

def PATCH_LOG_SUFFIX : String := ".log"

def REMOTE_LOCAL : String := "."

def REMOTE_ORIGIN : String := "origin"

/-- `git.Kind` (`src/src/jf/git.py` lines 55-65). -/
inductive Kind where
  | unknown
  | head
  | tag
  | remote
  | stgit
  | patch
  | patch_log
deriving DecidableEq, Repr

/-- `git.RefName`: a reference name (`src/src/jf/git.py` line 93).  Equality
of Python `RefName`s is by `name`, so the embedding carries only the name. -/
structure RefName where
  name : String
deriving DecidableEq, Repr

/-- `RefName.for_branch` (`src/src/jf/git.py` lines 99-103). -/
def RefName.for_branch (remote : String) (branch_name : String) : RefName :=
  if remote = REMOTE_LOCAL then ⟨HEAD_PFX ++ branch_name⟩
  else ⟨REMOTE_PFX ++ remote ++ "/" ++ branch_name⟩

/-- `RefName.short` (`src/src/jf/git.py` lines 120-126): strip the first
matching prefix. -/
def RefName.short (r : RefName) : String :=
  if pyStartsWith r.name HEAD_PFX then pyDrop r.name (pyLen HEAD_PFX)
  else if pyStartsWith r.name TAG_PFX then pyDrop r.name (pyLen TAG_PFX)
  else if pyStartsWith r.name REMOTE_PFX then pyDrop r.name (pyLen REMOTE_PFX)
  else if pyStartsWith r.name GENERIC_PFX then pyDrop r.name (pyLen GENERIC_PFX)
  else r.name

/-- `RefName.kind` (`src/src/jf/git.py` lines 128-142). -/
def RefName.kind (r : RefName) : Kind :=
  if pyStartsWith r.name HEAD_PFX then
    if pyEndsWith r.name STGIT_SUFFIX then Kind.stgit else Kind.head
  else if pyStartsWith r.name TAG_PFX then Kind.tag
  else if pyStartsWith r.name REMOTE_PFX then Kind.remote
  else if pyStartsWith r.name PATCH_PFX then
    if pyEndsWith r.name PATCH_LOG_SUFFIX then Kind.patch_log else Kind.patch
  else Kind.unknown

/-- `RefName.is_remote` (`src/src/jf/git.py` lines 144-146). -/
def RefName.is_remote (r : RefName) : Bool :=
  r.kind = Kind.remote

/-- `RefName.branch` (`src/src/jf/git.py` lines 159-166); `ZeroBranchName`
(the empty string) for non-branch kinds. -/
def RefName.branch (r : RefName) : String :=
  if r.kind = Kind.head ∨ r.kind = Kind.stgit then r.short
  else if r.kind = Kind.remote then (pyPartition r.short '/').2.2
  else ""

/-- `git.Ref`: a reference paired with its commit hash
(`src/src/jf/git.py` lines 178-186).  Shas are modelled as `String`; the
empty string is `ZeroSha` (falsy in Python). -/
structure Ref where
  name : String
  sha : String
deriving DecidableEq, Repr

/-- The `RefName` view of a `Ref` (Python `Ref` subclasses `RefName`). -/
def Ref.refName (r : Ref) : RefName :=
  ⟨r.name⟩

def Ref.short (r : Ref) : String :=
  r.refName.short

def Ref.kind (r : Ref) : Kind :=
  r.refName.kind

def Ref.is_remote (r : Ref) : Bool :=
  r.refName.is_remote

def Ref.branch (r : Ref) : String :=
  r.refName.branch

/-- The `sha`/`parents` content of one parsed `git.Commit`
(`src/src/jf/git.py` lines 75-80). -/
structure CommitData where
  sha : String
  parents : List String
deriving DecidableEq, Repr

/-- The keys of the `commits` dictionary: the shas in parse order. -/
def commitKeys (log : List CommitData) : List String :=
  log.map (fun c => c.sha)

/-- The child links of `sha` after the inversion pass
(`src/src/jf/repo.py` lines 332-334): one entry `c.sha` for every occurrence
of `sha` in `c.parents`, in parse order. -/
def childrenOf (log : List CommitData) (sha : String) : List String :=
  log.flatMap (fun c => (c.parents.filter (fun p => p = sha)).map (fun _ => c.sha))

/-- `self.commits[c].children` as used by the traversal's `exits` callback
(`src/src/jf/repo.py` lines 392-393): `none` models the `KeyError` raised
when `c` is not a key of the commits dictionary. -/
def lookupChildren (log : List CommitData) (sha : String) : Option (List String) :=
  if sha ∈ commitKeys log then some (childrenOf log sha) else none

/-- Modelled from the spec: `dsapy.algs.bdfs.dfs(start, exits)` (an external
dependency, not part of this repository) is a breadth-first traversal that
pops a node from the worklist, skips it when already visited, otherwise
yields it and enqueues `exits(node)`; the caller
(`Cache.is_merged_into`, `src/src/jf/repo.py` lines 395-397) returns true
the moment the target sha is yielded, and false when the traversal ends.
`none` propagates the `KeyError` from `exits` on a sha missing from the
commits dictionary.  Fuel bounds the number of pops; `bfsFuel` below always
suffices. -/
def bfsSearch (log : List CommitData) (target : String) :
    Nat → List String → List String → Option Bool
  | 0, _, _ => none
  | _ + 1, [], _ => some false
  | fuel + 1, u :: rest, visited =>
    if u ∈ visited then bfsSearch log target fuel rest visited
    else if u = target then some true
    else
      match lookupChildren log u with
      | none => none
      | some cs => bfsSearch log target fuel (rest ++ cs) (u :: visited)

/-- An upper bound on the pops a traversal of `log` from a single start node
can make: one per start plus one per child link, plus slack. -/
def bfsFuel (log : List CommitData) : Nat :=
  (log.map (fun c => 1 + c.parents.length)).sum + 2

/-- `Cache.is_merged_into` (`src/src/jf/repo.py` lines 386-398).  Python's
`Optional[Sha]` arguments that are `None` and the empty `ZeroSha` are both
falsy; both are modelled by the empty string. -/
def is_merged_into (log : List CommitData) (parent_sha child_sha : String) : Option Bool :=
  if parent_sha = "" ∨ child_sha = "" then some false
  else bfsSearch log child_sha (bfsFuel log) [parent_sha] []

/-- Forward reachability through child edges: the claim's "d is reachable
from a by traversing child edges forward". -/
def Reach (log : List CommitData) (a d : String) : Prop :=
  Relation.ReflTransGen (fun x y => y ∈ childrenOf log x) a d

/-- One traversal step from an unvisited node. -/
def stepAvoid (log : List CommitData) (visited : List String) (a b : String) : Prop :=
  a ∉ visited ∧ b ∈ childrenOf log a

/-- Reachability along steps whose sources avoid `visited`. -/
def ReachAvoid (log : List CommitData) (visited : List String) (a d : String) : Prop :=
  Relation.ReflTransGen (stepAvoid log visited) a d

/-- Worklist cost of expanding one node. -/
def nodeWeight (log : List CommitData) (k : String) : Nat :=
  1 + (childrenOf log k).length

/-- Total worklist cost of the not-yet-visited keys. -/
def unvisitedWeight (log : List CommitData) (visited : List String) : Nat :=
  (((commitKeys log).filter (fun k => ¬ k ∈ visited)).map (nodeWeight log)).sum

/-- A two-commit graph: `"m"` is a child of `"f"`. -/
def demoLog : List CommitData := [⟨"m", ["f"]⟩, ⟨"f", []⟩]

/-!
## Shortcut resolution
-/

/-- The sort key of `Cache.resolve_shortcut`'s `max` call
(`src/src/jf/repo.py` line 378): the pair `(r.branch, r.is_remote)`. -/
def refKey (r : Ref) : String × Bool :=
  (r.branch, r.is_remote)

/-- Python `<` on strings: lexicographic comparison by code point. -/
def pyStrLtList : List Char → List Char → Bool
  | [], [] => false
  | [], _ :: _ => true
  | _ :: _, [] => false
  | a :: as, b :: bs =>
    if a.toNat < b.toNat then true
    else if a.toNat = b.toNat then pyStrLtList as bs
    else false

def pyStrLt (a b : String) : Prop :=
  pyStrLtList a.data b.data = true

instance pyStrLtDec (a b : String) : Decidable (pyStrLt a b) :=
  inferInstanceAs (Decidable (_ = true))

/-- Python's `<` on the pair `(str, bool)`: lexicographic, with
`False < True`. -/
def keyLt (k1 k2 : String × Bool) : Prop :=
  pyStrLt k1.1 k2.1 ∨ (k1.1 = k2.1 ∧ k1.2 = false ∧ k2.2 = true)

instance keyLtDec (k1 k2 : String × Bool) : Decidable (keyLt k1 k2) :=
  inferInstanceAs (Decidable (pyStrLt k1.1 k2.1 ∨ (k1.1 = k2.1 ∧ k1.2 = false ∧ k2.2 = true)))

/-- Python `max(matches, key=...)`: scan left to right, keeping the current
element unless a strictly greater key appears (so the first maximum wins). -/
def pyMaxBy (key : Ref → String × Bool) (first : Ref) (rest : List Ref) : Ref :=
  rest.foldl (fun acc x => if keyLt (key acc) (key x) then x else acc) first

/-- The loop of `Cache.resolve_shortcut` (`src/src/jf/repo.py` lines
365-378): skip refs with a falsy branch name, return the first exact branch
match immediately, collect prefix matches, and finally take the maximum of
the collected matches (`None` when there are none). -/
def resolveShortcutAux (shortcut : String) : List Ref → List Ref → Option Ref
  | [], acc =>
    match acc with
    | [] => none
    | m :: ms => some (pyMaxBy refKey m ms)
  | r :: rest, acc =>
    if r.branch = "" then resolveShortcutAux shortcut rest acc
    else if r.branch = shortcut then some r
    else if pyStartsWith r.branch (shortcut ++ "/") then
      resolveShortcutAux shortcut rest (acc ++ [r])
    else resolveShortcutAux shortcut rest acc

/-- `Cache.resolve_shortcut` over the repository's `refs_list`. -/
def resolve_shortcut (refs_list : List Ref) (shortcut : String) : Option Ref :=
  resolveShortcutAux shortcut refs_list []

/-- The prefix-match filter of `resolve_shortcut`. -/
def shortcutMatches (refs : List Ref) (shortcut : String) : List Ref :=
  refs.filter (fun r => decide (r.branch ≠ "") && pyStartsWith r.branch (shortcut ++ "/"))

/-- Two local release branches (the claim's example refs). -/
def demoRefs : List Ref :=
  [⟨"refs/heads/release/1.0", "r1"⟩, ⟨"refs/heads/release/2.0", "r2"⟩]

/-!
## Configuration holder

`GitConfigHolder` (`src/src/jf/config.py` lines 125-166) caches
`git config --list` as a dict from dotted key to list of values
(`defaultdict(list)`).  The cached dict is modelled as an association list
with dict semantics: lookup by first matching key; assignment replaces the
entry in place or appends a new entry at the end.  Only the in-memory cache
update is modelled (each mutator first shells out to `git config`, then
updates the cache when it is populated).
-/

/-- Dict read: `self._config.get(name)`. -/
def cfgGet (c : List (String × List String)) (k : String) : Option (List String) :=
  (c.find? (fun p => p.1 = k)).map (fun p => p.2)

/-- Dict assignment `self._config[name] = v`. -/
def dictAssign (c : List (String × List String)) (k : String) (v : List String) :
    List (String × List String) :=
  if (c.find? (fun p => p.1 = k)).isSome then
    c.map (fun p => if p.1 = k then (k, v) else p)
  else c ++ [(k, v)]

/-- `GitConfigHolder.set` cache update (`src/src/jf/config.py` line 148):
`self._config[name] = [value]`. -/
def holderSet (c : List (String × List String)) (k v : String) :
    List (String × List String) :=
  dictAssign c k [v]

/-- `GitConfigHolder.reset` cache update (line 154): identical to `set` in
memory (`--replace-all` only differs in the external store). -/
def holderReset (c : List (String × List String)) (k v : String) :
    List (String × List String) :=
  dictAssign c k [v]

/-- `GitConfigHolder.append` cache update (line 160):
`self._config[name].append(value)` — the `defaultdict` materializes `[]`
for a missing key first. -/
def holderAppend (c : List (String × List String)) (k v : String) :
    List (String × List String) :=
  dictAssign c k ((cfgGet c k).getD [] ++ [v])

/-- `GitConfigHolder.unset` cache update (line 166): `del self._config[name]`;
`none` models the `KeyError` on a missing key. -/
def holderUnset (c : List (String × List String)) (k : String) :
    Option (List (String × List String)) :=
  if (c.find? (fun p => p.1 = k)).isSome then some (c.filter (fun p => ¬ p.1 = k))
  else none

/-!
## Config schema reads and the branch model

A raw git configuration (`git config --list`) is a multimap from dotted key
to value list, the same shape as the holder cache above.  The typed reads of
`src/src/jf/schema.py` are views over it: `ValueCfg.value` takes the first
value at the path or a default, `MaybeValueCfg.value` takes the first value
or `None`.
-/

/-- `self.raw.get(self.path, [])`. -/
def rawGet (cfg : List (String × List String)) (key : String) : List String :=
  (cfgGet cfg key).getD []

/-- `ValueCfg.value` for `StrType` (`src/src/jf/schema.py` lines 137-142). -/
def readStr (cfg : List (String × List String)) (key d : String) : String :=
  match rawGet cfg key with
  | [] => d
  | s :: _ => s

/-- `MaybeValueCfg.value` for `StrType` (`src/src/jf/schema.py` lines
114-119). -/
def readMaybe (cfg : List (String × List String)) (key : String) : Option String :=
  match rawGet cfg key with
  | [] => none
  | s :: _ => some s

/-- Python `int(s)` on a decimal string (optionally signed); `none` models
`ValueError`.  (Whitespace and underscore forms are not modelled; git
config values are plain decimals.) -/
def digitsToNatAux (acc : Nat) : List Char → Option Nat
  | [] => some acc
  | c :: cs =>
    if 48 ≤ c.toNat ∧ c.toNat ≤ 57 then digitsToNatAux (acc * 10 + (c.toNat - 48)) cs
    else none

def pyInt (s : String) : Option Int :=
  match s.data with
  | [] => none
  | '-' :: rest =>
    match rest with
    | [] => none
    | _ => (digitsToNatAux 0 rest).map (fun n => -(n : Int))
  | l => (digitsToNatAux 0 l).map (fun n => (n : Int))

/-- `ValueCfg.value` for `IntType`: default when the key is absent, parse
failure is an error. -/
def readInt (cfg : List (String × List String)) (key : String) (d : Int) : Option Int :=
  match rawGet cfg key with
  | [] => some d
  | s :: _ => pyInt s

/-- Modelled from the spec: `dsapy.algs.strconv.parse_bool` (an external
dependency, not part of this repository) parses the usual boolean
spellings; an unrecognized string is a parse failure. -/
def parse_bool (s : String) : Option Bool :=
  if s = "1" ∨ s = "y" ∨ s = "yes" ∨ s = "t" ∨ s = "true" ∨ s = "on" then some true
  else if s = "0" ∨ s = "n" ∨ s = "no" ∨ s = "f" ∨ s = "false" ∨ s = "off" then some false
  else none

/-- `ValueCfg.value` for `BoolType`: default when the key is absent. -/
def readBool (cfg : List (String × List String)) (key : String) (d : Bool) : Option Bool :=
  match rawGet cfg key with
  | [] => some d
  | s :: _ => parse_bool s

/-- `branch.<name>.<key>` (`GitBranchCfg`, `src/src/jf/config.py`
lines 106-113). -/
def branchPath (name key : String) : String :=
  "branch." ++ name ++ "." ++ key

/-- `branch.<name>.jflow.<key>` (`JfBranchCfg`, lines 58-90). -/
def jfPath (name key : String) : String :=
  "branch." ++ name ++ ".jflow." ++ key

/-- `Generic.jflow_version` (`src/src/jf/branch.py` lines 95-97):
`branch.<name>.jflow.version`, integer, default 0. -/
def jflow_version (cfg : List (String × List String)) (name : String) : Option Int :=
  readInt cfg (jfPath name "version") 0

/-- `Generic.is_stgit` (`src/src/jf/branch.py` lines 99-101):
`branch.<name>.stgit.stackformatversion` is truthy. -/
def stgit_version (cfg : List (String × List String)) (name : String) : Option Int :=
  readInt cfg (branchPath name "stgit.stackformatversion") 0

/-- `Generic.upstream` (`src/src/jf/branch.py` lines 153-164).  Version 0:
legacy `branch.<name>.merge` tracking config — when `merge` names a ref with
a non-empty branch the source evaluates `br.branch.ref(self.cfg.remote.value)`,
but `RefName.branch` returns a `BranchName`, which is `NewType('BranchName',
str)` (`src/src/jf/common.py` line 9), a plain `str` at runtime with no `ref`
method, so the call raises `AttributeError` (`none`).  Version 1 evaluates
`self.cfg.jf.upstream.value.ref(git.REMOTE_LOCAL)` where the value is a plain
`str` (`schema.StrType`, default `''`), so it always raises `AttributeError`.
Any other version raises `UnsupportedJflowVersionError`.  The outer `Option`
is the error; the inner one is Python's `None`. -/
def generic_upstream (cfg : List (String × List String)) (name : String) :
    Option (Option RefName) := do
  let v ← jflow_version cfg name
  if v = 0 then
    let m := readStr cfg (branchPath name "merge") ""
    if m = "" then pure none
    else
      let br := (RefName.mk m).branch
      if br = "" then pure none
      else none
  else if v = 1 then
    none
  else none

/-- Python `a or b` over optional strings, where `None` and `''` are falsy. -/
def pyOrStr (a b : Option String) : Option String :=
  match a with
  | some s => if s = "" then b else some s
  | none => b

/-- Truthiness of an optional string. -/
def truthyStr (a : Option String) : Bool :=
  match a with
  | some s => s ≠ ""
  | none => false

/-- `Generic.public` (`src/src/jf/branch.py` lines 120-129): version 1 reads
`branch.<name>.jflow.public` (`lreview`); when the value is truthy the source
calls `bn.ref(git.REMOTE_LOCAL)` on the plain `str` value, raising
`AttributeError` (`none`). -/
def generic_public (cfg : List (String × List String)) (name : String) :
    Option (Option RefName) := do
  let v ← jflow_version cfg name
  if v = 0 then pure none
  else if v = 1 then
    match readMaybe cfg (jfPath name "public") with
    | none => pure none
    | some bn => if bn = "" then pure none else none
  else none

/-- `Generic.ldebug` (`src/src/jf/branch.py` lines 142-151): version 1 reads
`branch.<name>.jflow.ldebug`, falling back to `branch.<name>.jflow.debug`;
when the combined value is truthy the source calls `bn.ref(git.REMOTE_LOCAL)`
on the plain `str` value, raising `AttributeError` (`none`). -/
def generic_ldebug (cfg : List (String × List String)) (name : String) :
    Option (Option RefName) := do
  let v ← jflow_version cfg name
  if v = 0 then pure none
  else if v = 1 then
    match pyOrStr (readMaybe cfg (jfPath name "ldebug")) (readMaybe cfg (jfPath name "debug")) with
    | none => pure none
    | some bn => if bn = "" then pure none else none
  else none

/-- `Generic.stgit` (`src/src/jf/branch.py` lines 103-107): when the branch
is under StGit the source evaluates `git.RefName(self.ref + git.STGIT_SUFFIX)`,
but `self.ref` is a `RefName` object and the class defines no `__add__`
(`src/src/jf/git.py` lines 93-175), so the expression raises `TypeError`
(`none`). -/
def generic_stgit (cfg : List (String × List String)) (ref : RefName) :
    Option (Option RefName) := do
  let sv ← stgit_version cfg (RefName.short ref)
  if sv = 0 then pure none
  else none

/-- `Generic.sync` (`src/src/jf/branch.py` lines 184-194): jflow-managed
branches are always `False`; otherwise the explicit flag, else the global
autosync flag combined with a remote-tracking upstream. -/
def generic_sync (cfg : List (String × List String)) (name : String) : Option Bool := do
  let v ← jflow_version cfg name
  if v ≠ 0 then pure false
  else do
    let s ← readBool cfg (jfPath name "sync") false
    if s then pure true
    else do
      let a ← readBool cfg "jflow.autosync" false
      if a = false then pure false
      else do
        let uo ← generic_upstream cfg name
        match uo with
        | none => pure false
        | some u => pure u.is_remote

/-- `Generic.gen_related_refs` (`src/src/jf/branch.py` lines 196-202):
public (if different from the head ref), local-debug (if different), and the
stack-metadata ref. -/
def gen_related_refs (cfg : List (String × List String)) (ref : RefName) :
    Option (List RefName) := do
  let name := RefName.short ref
  let pub ← generic_public cfg name
  let ld ← generic_ldebug cfg name
  let st ← generic_stgit cfg ref
  pure ((match pub with
      | some p => if p ≠ ref then [p] else []
      | none => []) ++
    (match ld with
      | some l => if l ≠ ref then [l] else []
      | none => []) ++
    (match st with
      | some s => [s]
      | none => []))

/-- `mapM` over `Option`, written out so that the lemmas below are direct. -/
def mapMO {α β : Type} (f : α → Option β) : List α → Option (List β)
  | [] => some []
  | x :: xs =>
    match f x, mapMO f xs with
    | some y, some ys => some (y :: ys)
    | _, _ => none

/-- The head-kind refs of the refs list, as `RefName`s
(`src/src/jf/repo.py` lines 340-344). -/
def headRefs (refs : List Ref) : List RefName :=
  (refs.filter (fun r => decide (r.kind = Kind.head))).map (fun r => RefName.mk r.name)

/-- A Python value as seen by `==`: `RefName.__eq__` returns `False` unless
the other operand is a `RefName` (`src/src/jf/git.py` lines 108-111), and
`str.__eq__` answers `NotImplemented` for a `RefName`, so a `str` and a
`RefName` never compare equal — even when they carry the same characters. -/
inductive PyVal where
  | pyStr (s : String)
  | pyRefName (s : String)

def pyValEq : PyVal → PyVal → Bool
  | .pyStr a, .pyStr b => a == b
  | .pyRefName a, .pyRefName b => a == b
  | .pyStr _, .pyRefName _ => false
  | .pyRefName _, .pyStr _ => false

/-- The key set of `Cache.branch_by_ref` (`src/src/jf/repo.py` lines
338-351): `all_heads[ref.name] = Branch(self, ref)` keys the dict by the
`str` name, then `branch_refs.pop(r, None)` removes every value produced by
any head's `gen_related_refs()` — a `RefName` probed against `str` keys,
which never compare equal (`pyValEq`).  `none` models a failure while
building a `Branch` or running a generator (invalid branch ref,
`AttributeError`/`TypeError` inside the related-refs properties,
unsupported jflow version). -/
def branch_by_ref_keys (cfg : List (String × List String)) (refs : List Ref) :
    Option (List String) :=
  let heads := headRefs refs
  if heads.all (fun h => !(h.branch == "")) then
    match mapMO (fun h => gen_related_refs cfg h) heads with
    | none => none
    | some related =>
      some (related.flatten.foldl
        (fun acc r =>
          acc.filter (fun k => !(pyValEq (PyVal.pyStr k) (PyVal.pyRefName r.name))))
        (heads.map (fun h => h.name)))
  else none

/-- Concrete snapshot for the ownership claim: `b1` is a jflow branch whose
public ref is `b2`; both are heads.  Building the branch map at this input
evaluates `Generic.public` for `b1`, which raises `AttributeError`. -/
def c9Cfg : List (String × List String) :=
  [(jfPath "b1" "version", ["1"]), (jfPath "b1" "public", ["b2"])]

def c9Refs : List Ref :=
  [⟨"refs/heads/b1", "s1"⟩, ⟨"refs/heads/b2", "s2"⟩]

/-- Concrete config for the sync claim: a version-0 branch with `sync`
unset, the global autosync flag on, and a legacy `merge` tracking entry —
the configuration whose `Generic.sync` read reaches
`br.branch.ref(self.cfg.remote.value)` and raises `AttributeError`. -/
def c8Cfg : List (String × List String) :=
  [("jflow.autosync", ["true"]), (branchPath "b" "merge", ["refs/heads/main"])]

/-!
## Template-driven branch creation (`jf start`)
-/

/-- `SectionCfg.keys` for `jflow.template` (`src/src/jf/schema.py` lines
63-70): the distinct first path segments under the prefix.  The source
builds a Python set, whose iteration order is unspecified; first-occurrence
order is used here. -/
def templateKeys (cfg : List (String × List String)) : List String :=
  ((cfg.filter (fun p => pyStartsWith p.1 "jflow.template.")).map
    (fun p => (pyPartition (pyDrop p.1 (pyLen "jflow.template.")) '.').1)).eraseDups

/-- The prefix-match scan of `start` (`src/src/jf/cmd/start.py` lines
59-65): templates whose prefix starts the new branch name and whose
`version` is truthy. -/
def startMatches (cfg : List (String × List String)) (name : String) :
    Option (List String) :=
  (templateKeys cfg).foldr
    (fun k acc => do
      let l ← acc
      if pyStartsWith name k then do
        let v ← readInt cfg ("jflow.template." ++ k ++ ".version") 0
        if v ≠ 0 then pure (k :: l) else pure l
      else pure l)
    (some [])

/-- Stable insertion by string length, modelling Python's stable
`sort(key=len)` (`src/src/jf/cmd/start.py` line 68): an element inserted
later goes after all elements of less-or-equal length. -/
def insertByLen (x : String) : List String → List String
  | [] => [x]
  | y :: ys => if pyLen x < pyLen y then x :: y :: ys else y :: insertByLen x ys

def sortByLen (l : List String) : List String :=
  l.foldl (fun acc x => insertByLen x acc) []

/-- `template_cfg['upstream']` (`src/src/jf/cmd/start.py` lines 74-88):
iterate the matches in ascending length order, later (longer) templates
overriding earlier ones; the `defaultdict` yields `''` when no matching
template sets `upstream`. -/
def templateUpstream (cfg : List (String × List String)) (sortedMatches : List String) :
    String :=
  sortedMatches.foldl
    (fun acc m =>
      match readMaybe cfg ("jflow.template." ++ m ++ ".upstream") with
      | some v => v
      | none => acc)
    ""

/-- The upstream shortcut `start` resolves (`src/src/jf/cmd/start.py` lines
66-70 and 105): the `--upstream` option when truthy, else the merged
template value; error when no template prefix matches. -/
def startUpstreamShortcut (cfg : List (String × List String)) (name cli : String) :
    Option String := do
  let ms ← startMatches cfg name
  if ms = [] then none
  else pure (if cli ≠ "" then cli else templateUpstream cfg (sortByLen ms))

/-- The `branch.<name>.jflow.upstream` value `start` writes
(`src/src/jf/cmd/start.py` lines 105-111): the resolved shortcut's branch
name; errors when the shortcut does not resolve to a branch. -/
def startUpstreamValue (cfg : List (String × List String)) (refs : List Ref)
    (name cli : String) : Option String := do
  let sc ← startUpstreamShortcut cfg name cli
  match resolve_shortcut refs sc with
  | none => none
  | some r => if r.branch = "" then none else pure r.branch

/-- Refs for the C5 scenario: a local `develop` branch. -/
def c5Refs : List Ref :=
  [⟨"refs/heads/develop", "d1"⟩, ⟨"refs/heads/feature/x", "f1"⟩]

/-- Config for the C5 scenario: `feature/x` is a version-1 branch with no
branch-level `upstream`; a template is registered at prefix `feature/` with
`upstream=develop`. -/
def c5Cfg : List (String × List String) :=
  [(jfPath "feature/x" "version", ["1"]),
   ("jflow.template.feature/.version", ["1"]),
   ("jflow.template.feature/.upstream", ["develop"])]

/-!
## Merge-status classifiers

Two classifiers exist: `ListLine.merged` (`src/src/jf/cmd/list.py` lines
59-72) computes the letter shown by `jf list`; `Filter.is_merge_status`
(`src/src/jf/cmd/delete.py` lines 93-104) implements the `--merged` filter
of `jf delete`.
-/

theorem pyDrop_append (p s : String) : pyDrop (p ++ s) (pyLen p) = s := by
  show (⟨(p.data ++ s.data).drop p.data.length⟩ : String) = s
  rw [List.drop_left]

theorem splitFirst_no_sep {sep : Char} {l : List Char} (h : sep ∉ l) (rest : List Char) :
    splitFirst sep (l ++ sep :: rest) = some (l, rest) := by
  induction l with
  | nil => simp [splitFirst]
  | cons c cs ih =>
    simp only [List.mem_cons, not_or] at h
    simp [splitFirst, Ne.symm h.1, ih h.2]

theorem append_drop_of_startsWith {p name : String} (h : pyStartsWith name p = true) :
    p ++ pyDrop name (pyLen p) = name := by
  unfold pyStartsWith at h
  rw [ List.isPrefixOf_iff_prefix] at h
  obtain ⟨t, ht⟩ := h
  show (⟨p.data ++ name.data.drop p.data.length⟩ : String) = name
  exact congrArg String.mk (by rw [← ht, List.drop_left])

theorem stgit_suffix_through_head {b : List Char}
    (h : ¬ (['.', 's', 't', 'g', 'i', 't'] <:+ b)) :
    ¬ (['.', 's', 't', 'g', 'i', 't'] <:+
        ['r', 'e', 'f', 's', '/', 'h', 'e', 'a', 'd', 's', '/'] ++ b) := by
  intro hsuf
  obtain ⟨t, ht⟩ := hsuf
  by_cases hlen : 6 ≤ b.length
  · have hb : b = b.take (b.length - 6) ++ b.drop (b.length - 6) :=
      (List.take_append_drop _ _).symm
    have ht' : t ++ ['.', 's', 't', 'g', 'i', 't'] =
        (['r', 'e', 'f', 's', '/', 'h', 'e', 'a', 'd', 's', '/'] ++ b.take (b.length - 6)) ++
          b.drop (b.length - 6) := by
      rw [List.append_assoc, ← hb, ht]
    have hlen6 : (['.', 's', 't', 'g', 'i', 't'] : List Char).length =
        (b.drop (b.length - 6)).length := by
      rw [List.length_drop]
      show 6 = _
      omega
    have hstg := List.append_inj_right' ht' hlen6
    apply h
    rw [hstg]
    exact List.drop_suffix _ _
  · have hssuf : (['.', 's', 't', 'g', 'i', 't'] : List Char) <:+
        ['r', 'e', 'f', 's', '/', 'h', 'e', 'a', 'd', 's', '/'] ++ b := ⟨t, ht⟩
    have hbsuf : b <:+ ['r', 'e', 'f', 's', '/', 'h', 'e', 'a', 'd', 's', '/'] ++ b :=
      List.suffix_append _ b
    have hbl : b.length ≤ (['.', 's', 't', 'g', 'i', 't'] : List Char).length := by
      simp only [List.length_cons, List.length_nil]
      omega
    have hbs : b <:+ (['.', 's', 't', 'g', 'i', 't'] : List Char) :=
      List.suffix_of_suffix_length_le hbsuf hssuf hbl
    obtain ⟨u, hu⟩ := hbs
    have hune : u ≠ [] := by
      intro hnil
      apply h
      rw [hnil] at hu
      simp only [List.nil_append] at hu
      rw [hu]
    have hhd : (['r', 'e', 'f', 's', '/', 'h', 'e', 'a', 'd', 's', '/'] : List Char) =
        t ++ u := by
      have hta : (t ++ u) ++ b =
          (['r', 'e', 'f', 's', '/', 'h', 'e', 'a', 'd', 's', '/'] : List Char) ++ b := by
        rw [List.append_assoc, hu, ht]
      exact (List.append_inj_left' hta rfl).symm
    have husuf : u <:+ (['r', 'e', 'f', 's', '/', 'h', 'e', 'a', 'd', 's', '/'] : List Char) :=
      ⟨t, hhd.symm⟩
    have hlast : u.getLast hune =
        (['r', 'e', 'f', 's', '/', 'h', 'e', 'a', 'd', 's', '/'] : List Char).getLast
          (husuf.ne_nil hune) := List.IsSuffix.getLast husuf hune
    have hslash : u.getLast hune = '/' := by
      rw [hlast]
      rfl
    have hmem : '/' ∈ u := hslash ▸ List.getLast_mem hune
    have hmem2 : '/' ∈ (['.', 's', 't', 'g', 'i', 't'] : List Char) :=
      hu ▸ List.mem_append_left b hmem
    exact absurd hmem2 (by decide)

theorem pyEndsWith_head_stgit {b : String} (h : pyEndsWith b STGIT_SUFFIX = false) :
    pyEndsWith (HEAD_PFX ++ b) STGIT_SUFFIX = false := by
  simp only [pyEndsWith, STGIT_SUFFIX, HEAD_PFX, String.data_append, Bool.eq_false_iff,
    ne_eq, List.isSuffixOf_iff_suffix] at h ⊢
  exact stgit_suffix_through_head h

/-- C7 (corrected).  The round-trip equations hold under two restrictions
the code forces: the remote name must not contain `'/'` (otherwise
`RefName.branch` of a remote-tracking ref cuts at the first slash inside the
remote name), and the branch name must not end in `.stgit` (otherwise
`RefName.kind` classifies the head ref as `stgit`, not `head`).  Under those
restrictions, for every non-empty branch name `b` and remote `r`,
`for_branch(r, b).branch == b` and `for_branch(local, b).kind == head`. -/
theorem for_branch_roundtrip (r b : String) (_hb : b ≠ "")
    (hr : '/' ∉ r.data) (hstg : pyEndsWith b STGIT_SUFFIX = false) :
    (RefName.for_branch r b).branch = b ∧
      (RefName.for_branch REMOTE_LOCAL b).kind = Kind.head := by
  constructor
  · unfold RefName.for_branch
    by_cases hloc : r = REMOTE_LOCAL
    · rw [if_pos hloc]
      have hk : (⟨HEAD_PFX ++ b⟩ : RefName).kind = Kind.head := by
        unfold RefName.kind
        have h1 : pyStartsWith (HEAD_PFX ++ b) HEAD_PFX = true := by
          simp [pyStartsWith, HEAD_PFX, String.data_append, List.isPrefixOf]
        rw [if_pos h1, if_neg]
        rw [pyEndsWith_head_stgit hstg]
        simp
      unfold RefName.branch
      rw [if_pos (Or.inl hk)]
      show RefName.short _ = b
      unfold RefName.short
      have h1 : pyStartsWith (HEAD_PFX ++ b) HEAD_PFX = true := by
        simp [pyStartsWith, HEAD_PFX, String.data_append, List.isPrefixOf]
      rw [if_pos h1]
      exact pyDrop_append HEAD_PFX b
    · rw [if_neg hloc]
      have hh : pyStartsWith (REMOTE_PFX ++ r ++ "/" ++ b) HEAD_PFX = false := by
        simp [pyStartsWith, REMOTE_PFX, HEAD_PFX, String.data_append, List.isPrefixOf]
      have htg : pyStartsWith (REMOTE_PFX ++ r ++ "/" ++ b) TAG_PFX = false := by
        simp [pyStartsWith, REMOTE_PFX, TAG_PFX, String.data_append, List.isPrefixOf]
      have hrm : pyStartsWith (REMOTE_PFX ++ r ++ "/" ++ b) REMOTE_PFX = true := by
        simp [pyStartsWith, REMOTE_PFX, String.data_append, List.isPrefixOf]
      have hk : (⟨REMOTE_PFX ++ r ++ "/" ++ b⟩ : RefName).kind = Kind.remote := by
        unfold RefName.kind
        rw [if_neg (by rw [hh]; simp), if_neg (by rw [htg]; simp), if_pos hrm]
      unfold RefName.branch
      rw [if_neg (by rw [hk]; simp), if_pos (by rw [hk])]
      show (pyPartition (RefName.short _) '/').2.2 = b
      have hshort : RefName.short (⟨REMOTE_PFX ++ r ++ "/" ++ b⟩ : RefName) =
          ⟨r.data ++ '/' :: b.data⟩ := by
        unfold RefName.short
        rw [if_neg (by rw [hh]; simp), if_neg (by rw [htg]; simp), if_pos hrm]
        show (⟨((REMOTE_PFX ++ r ++ "/" ++ b).data).drop (pyLen REMOTE_PFX)⟩ : String) = _
        apply congrArg String.mk
        show ((("refs/remotes/".data ++ r.data) ++ ['/']) ++ b.data).drop ("refs/remotes/".data.length) = _
        rw [List.append_assoc, List.append_assoc, List.drop_left]
        simp
      rw [hshort]
      unfold pyPartition
      rw [show (⟨r.data ++ '/' :: b.data⟩ : String).data = r.data ++ '/' :: b.data from rfl,
        splitFirst_no_sep hr]
  · unfold RefName.for_branch
    rw [if_pos rfl]
    unfold RefName.kind
    have h1 : pyStartsWith (HEAD_PFX ++ b) HEAD_PFX = true := by
      simp [pyStartsWith, HEAD_PFX, String.data_append, List.isPrefixOf]
    rw [if_pos h1, if_neg]
    rw [pyEndsWith_head_stgit hstg]
    simp

/-- C7 counterexample: as stated, the claim fails — for a remote name
containing `'/'` the branch does not round-trip, and for a branch name ending
in `.stgit` the constructed local ref has kind `stgit`, not `head`. -/
theorem for_branch_roundtrip_cex :
    (RefName.for_branch "a/b" "c").branch ≠ "c" ∧
      (RefName.for_branch REMOTE_LOCAL "x.stgit").kind ≠ Kind.head := by
  decide

/-- Witness for `for_branch_roundtrip` at `r = "origin"`, `b = "feature/x"`. -/
theorem for_branch_roundtrip_witness :
    (RefName.for_branch "origin" "feature/x").branch = "feature/x" ∧
      (RefName.for_branch REMOTE_LOCAL "feature/x").kind = Kind.head :=
  for_branch_roundtrip "origin" "feature/x" (by decide) (by decide) (by decide)

theorem childrenOf_subset_keys {log : List CommitData} {a b : String}
    (h : b ∈ childrenOf log a) : b ∈ commitKeys log := by
  unfold childrenOf at h
  rw [List.mem_flatMap] at h
  obtain ⟨c, hc, hb⟩ := h
  rw [List.mem_map] at hb
  obtain ⟨p, _, hp⟩ := hb
  rw [← hp]
  exact List.mem_map_of_mem _ hc

theorem mem_childrenOf {log : List CommitData} {c : CommitData} {p : String}
    (hc : c ∈ log) (hp : p ∈ c.parents) : c.sha ∈ childrenOf log p := by
  unfold childrenOf
  rw [List.mem_flatMap]
  exact ⟨c, hc, List.mem_map_of_mem _ (List.mem_filter.mpr ⟨hp, by simp⟩)⟩

theorem reachAvoid_mono {log : List CommitData} {u : String} {visited : List String}
    {a d : String} (h : ReachAvoid log (u :: visited) a d) : ReachAvoid log visited a d :=
  Relation.ReflTransGen.mono
    (fun _ _ hs => ⟨fun hm => hs.1 (List.mem_cons_of_mem u hm), hs.2⟩) h

theorem reachAvoid_nil_iff {log : List CommitData} {a d : String} :
    ReachAvoid log [] a d ↔ Reach log a d := by
  constructor
  · exact Relation.ReflTransGen.mono (fun _ _ hs => hs.2)
  · exact Relation.ReflTransGen.mono (fun _ _ hs => ⟨List.not_mem_nil _, hs⟩)

/-- Peeling a freshly visited node `u` out of an avoiding path: the path
either already avoids `u`, or it passes through `u` and can be restarted at
one of `u`'s children. -/
theorem reachAvoid_peel {log : List CommitData} {u target : String} {visited : List String}
    (hu : u ≠ target) {v : String} (h : ReachAvoid log visited v target) :
    ReachAvoid log (u :: visited) v target ∨
      ∃ c ∈ childrenOf log u, ReachAvoid log (u :: visited) c target := by
  unfold ReachAvoid at h
  induction h using Relation.ReflTransGen.head_induction_on with
  | refl => exact Or.inl Relation.ReflTransGen.refl
  | head hs _ ih =>
    rename_i x w _
    rcases ih with ihl | ihr
    · by_cases hxu : x = u
      · subst hxu
        exact Or.inr ⟨w, hs.2, ihl⟩
      · exact Or.inl (Relation.ReflTransGen.head
          ⟨fun hm => (List.mem_cons.mp hm).elim hxu hs.1, hs.2⟩ ihl)
    · exact Or.inr ihr

/-- An avoiding path cannot start at a visited node (unless it is trivial at
an unvisited target). -/
theorem reachAvoid_start_unvisited {log : List CommitData} {visited : List String}
    {v target : String} (hv : v ∈ visited) (ht : target ∉ visited)
    (h : ReachAvoid log visited v target) : False := by
  rcases Relation.ReflTransGen.cases_head h with heq | ⟨w, hs, _⟩
  · exact ht (heq ▸ hv)
  · exact hs.1 hv

theorem filtered_sum_cons {f : String → Nat} {l : List String} (hnd : l.Nodup)
    {u : String} {visited : List String} (hu : u ∈ l) (hnv : u ∉ visited) :
    ((l.filter (fun k => ¬ k ∈ u :: visited)).map f).sum + f u =
      ((l.filter (fun k => ¬ k ∈ visited)).map f).sum := by
  have hmemu : u ∈ l.filter (fun k => ¬ k ∈ visited) :=
    List.mem_filter.mpr ⟨hu, by simpa using hnv⟩
  have hperm : List.Perm (l.filter (fun k => ¬ k ∈ visited))
      (u :: (l.filter (fun k => ¬ k ∈ visited)).erase u) :=
    List.perm_cons_erase hmemu
  have herase : (l.filter (fun k => ¬ k ∈ visited)).erase u =
      l.filter (fun k => ¬ k ∈ u :: visited) := by
    rw [List.Nodup.erase_eq_filter (hnd.filter _), List.filter_filter]
    apply List.filter_congr
    intro a _
    by_cases hau : a = u
    · simp [hau, hnv, List.mem_cons]
    · simp [hau, List.mem_cons]
  have hsum := (hperm.map f).sum_eq
  rw [herase] at hsum
  simp only [List.map_cons, List.sum_cons] at hsum
  omega

theorem unvisitedWeight_cons {log : List CommitData} {u : String} {visited : List String}
    (hnd : (commitKeys log).Nodup) (hk : u ∈ commitKeys log) (hnv : u ∉ visited) :
    unvisitedWeight log (u :: visited) + nodeWeight log u = unvisitedWeight log visited :=
  filtered_sum_cons hnd hk hnv

/-- Worklist invariant: with the queue inside the commit keys, the target not
yet visited, and enough fuel, `bfsSearch` terminates with `some b`, and `b`
is true exactly when the target is reachable from the queue along edges
whose sources avoid `visited`. -/
theorem bfsSearch_spec (log : List CommitData) (target : String)
    (hnd : (commitKeys log).Nodup) :
    ∀ (fuel : Nat) (queue visited : List String),
      (∀ u ∈ queue, u ∈ commitKeys log) →
      target ∉ visited →
      unvisitedWeight log visited + queue.length + 1 ≤ fuel →
      ∃ b, bfsSearch log target fuel queue visited = some b ∧
        (b = true ↔ ∃ u ∈ queue, ReachAvoid log visited u target) := by
  intro fuel
  induction fuel with
  | zero =>
    intro queue visited _ _ hf
    omega
  | succ fuel ih =>
    intro queue visited hq ht hf
    match queue with
    | [] =>
      refine ⟨false, rfl, ?_⟩
      simp
    | u :: rest =>
      by_cases hv : u ∈ visited
      · have hq' : ∀ x ∈ rest, x ∈ commitKeys log :=
          fun x hx => hq x (List.mem_cons_of_mem _ hx)
        have hf' : unvisitedWeight log visited + rest.length + 1 ≤ fuel := by
          simp only [List.length_cons] at hf
          omega
        obtain ⟨b, hb, hiff⟩ := ih rest visited hq' ht hf'
        refine ⟨b, ?_, ?_⟩
        · simp only [bfsSearch, if_pos hv]
          exact hb
        · rw [hiff]
          constructor
          · rintro ⟨x, hx, hr⟩
            exact ⟨x, List.mem_cons_of_mem _ hx, hr⟩
          · rintro ⟨x, hx, hr⟩
            rcases List.mem_cons.mp hx with hxu | hxr
            · exact absurd (reachAvoid_start_unvisited (hxu ▸ hv) ht hr) (fun h => h)
            · exact ⟨x, hxr, hr⟩
      · by_cases htar : u = target
        · refine ⟨true, ?_, ?_⟩
          · simp only [bfsSearch, if_neg hv, if_pos htar]
          · simp only [true_iff]
            exact ⟨u, List.mem_cons_self u rest, htar ▸ Relation.ReflTransGen.refl⟩
        · have hk : u ∈ commitKeys log := hq u (List.mem_cons_self u rest)
          have hlk : lookupChildren log u = some (childrenOf log u) := by
            simp [lookupChildren, hk]
          have hq' : ∀ x ∈ rest ++ childrenOf log u, x ∈ commitKeys log := by
            intro x hx
            rcases List.mem_append.mp hx with hxr | hxc
            · exact hq x (List.mem_cons_of_mem _ hxr)
            · exact childrenOf_subset_keys hxc
          have ht' : target ∉ u :: visited := by
            intro hm
            rcases List.mem_cons.mp hm with hm | hm
            · exact htar hm.symm
            · exact ht hm
          have hwc := unvisitedWeight_cons hnd hk hv
          have hnw : nodeWeight log u = 1 + (childrenOf log u).length := rfl
          have hf' : unvisitedWeight log (u :: visited) +
              (rest ++ childrenOf log u).length + 1 ≤ fuel := by
            rw [List.length_append]
            simp only [List.length_cons] at hf
            omega
          obtain ⟨b, hb, hiff⟩ := ih (rest ++ childrenOf log u) (u :: visited) hq' ht' hf'
          refine ⟨b, ?_, ?_⟩
          · simp only [bfsSearch, if_neg hv, if_neg htar, hlk]
            exact hb
          · rw [hiff]
            constructor
            · rintro ⟨x, hx, hr⟩
              rcases List.mem_append.mp hx with hxr | hxc
              · exact ⟨x, List.mem_cons_of_mem _ hxr, reachAvoid_mono hr⟩
              · exact ⟨u, List.mem_cons_self u rest,
                  Relation.ReflTransGen.head ⟨hv, hxc⟩ (reachAvoid_mono hr)⟩
            · rintro ⟨x, hx, hr⟩
              rcases reachAvoid_peel htar hr with hl | ⟨c, hc, hcr⟩
              · rcases List.mem_cons.mp hx with hxu | hxr
                · exact absurd
                    (reachAvoid_start_unvisited (hxu ▸ List.mem_cons_self u visited) ht' hl)
                    (fun h => h)
                · exact ⟨x, List.mem_append_left _ hxr, hl⟩
              · exact ⟨c, List.mem_append_right _ hc, hcr⟩

theorem sum_map_add {α : Type} (f g : α → Nat) (l : List α) :
    (l.map (fun x => f x + g x)).sum = (l.map f).sum + (l.map g).sum := by
  induction l with
  | nil => rfl
  | cons a t ih =>
    simp only [List.map_cons, List.sum_cons, ih]
    omega

theorem filter_length_partition {α : Type} (p : α → Bool) (l : List α) :
    (l.filter p).length + (l.filter (fun a => ! p a)).length = l.length := by
  induction l with
  | nil => rfl
  | cons a t ih =>
    by_cases hp : p a
    · simp only [List.filter_cons, hp, Bool.not_true, if_pos, List.length_cons]
      simp only [List.filter_cons, hp, Bool.not_true] at *
      simp [ih]
      omega
    · have hp' : p a = false := Bool.eq_false_iff.mpr hp
      simp only [List.filter_cons, hp', Bool.not_false, List.length_cons]
      simp [ih]
      omega

theorem sum_filter_counts_le : ∀ (ks ps : List String), ks.Nodup →
    (ks.map (fun k => (ps.filter (fun p => p = k)).length)).sum ≤ ps.length := by
  intro ks
  induction ks with
  | nil =>
    intro ps _
    exact Nat.zero_le _
  | cons k t ih =>
    intro ps hnd
    have hkt : k ∉ t := (List.nodup_cons.mp hnd).1
    have hnt : t.Nodup := (List.nodup_cons.mp hnd).2
    have hcongr : ∀ k' ∈ t, (ps.filter (fun p => p = k')).length =
        ((ps.filter (fun p => ! (p = k : Bool))).filter (fun p => p = k')).length := by
      intro k' hk'
      have hne : k' ≠ k := fun h => hkt (h ▸ hk')
      rw [List.filter_filter]
      congr 1
      apply List.filter_congr
      intro a _
      by_cases hak' : a = k'
      · simp [hak', hne]
      · simp [hak']
    have hmap : t.map (fun k' => (ps.filter (fun p => p = k')).length) =
        t.map (fun k' => ((ps.filter (fun p => ! (p = k : Bool))).filter
          (fun p => p = k')).length) :=
      List.map_congr_left hcongr
    have hrec := ih (ps.filter (fun p => ! (p = k : Bool))) hnt
    have hpart := filter_length_partition (fun p => (p = k : Bool)) ps
    simp only [List.map_cons, List.sum_cons]
    rw [hmap]
    omega

theorem sum_map_one {α : Type} (l : List α) : (l.map (fun _ => 1)).sum = l.length := by
  induction l with
  | nil => rfl
  | cons a t ih =>
    simp [ih]
    omega

theorem sum_children_le : ∀ (log : List CommitData) (ks : List String), ks.Nodup →
    (ks.map (fun k => (childrenOf log k).length)).sum ≤
      (log.map (fun c => c.parents.length)).sum := by
  intro log
  induction log with
  | nil =>
    intro ks _
    have : ks.map (fun k => (childrenOf [] k).length) = ks.map (fun _ => 0) := by
      apply List.map_congr_left
      intro k _
      rfl
    rw [this]
    simp [List.sum_eq_zero]
  | cons c rest ih =>
    intro ks hnd
    have hsplit : ks.map (fun k => (childrenOf (c :: rest) k).length) =
        ks.map (fun k => (c.parents.filter (fun p => p = k)).length +
          (childrenOf rest k).length) := by
      apply List.map_congr_left
      intro k _
      show ((c.parents.filter (fun p => p = k)).map (fun _ => c.sha) ++
        childrenOf rest k).length = _
      rw [List.length_append, List.length_map]
    rw [hsplit, sum_map_add]
    have h1 := sum_filter_counts_le ks c.parents hnd
    have h2 := ih ks hnd
    simp only [List.map_cons, List.sum_cons]
    omega

/-- The fixed fuel suffices for the initial call. -/
theorem bfsFuel_sufficient (log : List CommitData) (hnd : (commitKeys log).Nodup) :
    unvisitedWeight log [] + 1 + 1 ≤ bfsFuel log := by
  unfold unvisitedWeight bfsFuel
  have hfilter : (commitKeys log).filter (fun k => ¬ k ∈ ([] : List String)) =
      commitKeys log := by
    apply List.filter_eq_self.mpr
    intro a _
    simp
  rw [hfilter]
  have h1 : ((commitKeys log).map (nodeWeight log)).sum =
      ((commitKeys log).map (fun _ => 1)).sum + ((commitKeys log).map
        (fun k => (childrenOf log k).length)).sum := by
    rw [← sum_map_add]
    rfl
  have h2 : ((log.map (fun c => 1 + c.parents.length)).sum) =
      (log.map (fun _ => 1)).sum + (log.map (fun c => c.parents.length)).sum := by
    rw [← sum_map_add]
  have h3 := sum_children_le log (commitKeys log) hnd
  have h4 : ((commitKeys log).map (fun _ => 1)).sum = log.length := by
    rw [sum_map_one]
    exact List.length_map _ _
  have h5 : (log.map (fun _ => 1)).sum = log.length := sum_map_one log
  omega

/-- Exhaustive case analysis of `is_merged_into`; shared backbone for the
theorems below. -/
theorem isMergedIntoCases (log : List CommitData)
    (hnd : (commitKeys log).Nodup) (p c : String) :
    ((p = "" ∨ c = "") → is_merged_into log p c = some false)
  ∧ (p ≠ "" → c ≠ "" → p = c → is_merged_into log p c = some true)
  ∧ (p ≠ "" → c ≠ "" → p ∈ commitKeys log →
      ∃ b, is_merged_into log p c = some b ∧ (b = true ↔ Reach log p c))
  ∧ (p ≠ "" → c ≠ "" → p ≠ c → p ∉ commitKeys log → is_merged_into log p c = none) := by
  refine ⟨?_, ?_, ?_, ?_⟩
  · intro h
    unfold is_merged_into
    rw [if_pos h]
  · intro hp hc hpc
    unfold is_merged_into
    rw [if_neg (by simp [hp, hc])]
    show bfsSearch log c ((log.map (fun c => 1 + c.parents.length)).sum + 1 + 1) [p] [] =
      some true
    simp only [bfsSearch]
    rw [if_neg (List.not_mem_nil p), if_pos hpc]
  · intro hp hc hpk
    unfold is_merged_into
    rw [if_neg (by simp [hp, hc])]
    have hfuel : unvisitedWeight log [] + ([p] : List String).length + 1 ≤ bfsFuel log := by
      have := bfsFuel_sufficient log hnd
      simp only [List.length_cons, List.length_nil]
      omega
    obtain ⟨b, hb, hiff⟩ := bfsSearch_spec log c hnd (bfsFuel log) [p] []
      (by intro u hu; rw [List.mem_singleton] at hu; exact hu ▸ hpk)
      (List.not_mem_nil c) hfuel
    refine ⟨b, hb, ?_⟩
    rw [hiff]
    constructor
    · rintro ⟨u, hu, hr⟩
      rw [List.mem_singleton] at hu
      exact reachAvoid_nil_iff.mp (hu ▸ hr)
    · intro hr
      exact ⟨p, List.mem_singleton.mpr rfl, reachAvoid_nil_iff.mpr hr⟩
  · intro hp hc hpc hpk
    unfold is_merged_into
    rw [if_neg (by simp [hp, hc])]
    show bfsSearch log c ((log.map (fun c => 1 + c.parents.length)).sum + 1 + 1) [p] [] = none
    simp only [bfsSearch]
    rw [if_neg (List.not_mem_nil p), if_neg hpc]
    have : lookupChildren log p = none := by
      unfold lookupChildren
      rw [if_neg hpk]
    rw [this]

/-- C2 (corrected).  Exhaustive behaviour of `is_merged_into` over a
commit dictionary with distinct keys: falsy (empty/`None`) shas give false;
equal non-falsy shas give true immediately (the start node is visited before
its children are looked up); a start sha present in the dictionary gives
exactly the reachability answer; and a non-falsy start sha absent from the
dictionary makes the child lookup fail (Python `KeyError`, modelled `none`)
instead of returning false as the claim states. -/
theorem is_merged_into_total_spec (log : List CommitData)
    (hnd : (commitKeys log).Nodup) (p c : String) :
    ((p = "" ∨ c = "") → is_merged_into log p c = some false)
  ∧ (p ≠ "" → c ≠ "" → p = c → is_merged_into log p c = some true)
  ∧ (p ≠ "" → c ≠ "" → p ∈ commitKeys log →
      ∃ b, is_merged_into log p c = some b ∧ (b = true ↔ Reach log p c))
  ∧ (p ≠ "" → c ≠ "" → p ≠ c → p ∉ commitKeys log → is_merged_into log p c = none) :=
  isMergedIntoCases log hnd p c

/-- C2 counterexample: with commit `"b"` loaded and sha `"a"` absent from
the commit dictionary, `is_merged_into("a", "b")` raises `KeyError`
(modelled `none`) — it does not return false as the claim states. -/
theorem is_merged_into_cex :
    is_merged_into [⟨"b", []⟩] "a" "b" = none := by decide

/-- Witness for `is_merged_into_total_spec` on `demoLog` at `p = "f"`,
`c = "m"`. -/
theorem is_merged_into_total_spec_witness :
    (commitKeys demoLog).Nodup ∧
      (∃ b, is_merged_into demoLog "f" "m" = some b ∧
        (b = true ↔ Reach demoLog "f" "m")) :=
  ⟨by decide,
    (is_merged_into_total_spec demoLog (by decide) "f" "m").2.2.1
      (by decide) (by decide) (by decide)⟩

theorem mem_commitKeys_ne_empty {log : List CommitData}
    (hne : ∀ cd ∈ log, cd.sha ≠ "") {x : String} (hx : x ∈ commitKeys log) : x ≠ "" := by
  unfold commitKeys at hx
  rw [List.mem_map] at hx
  obtain ⟨cd, hcd, hsha⟩ := hx
  exact hsha ▸ hne cd hcd

/-- C3 (confirmed).  Over a loaded commit graph — keys distinct, shas
non-empty, every parent sha present (the loader raises otherwise), child
links the inversion of parent links — `is_merged_into` is reflexive on
present commits, holds for every direct parent-child pair, and is
transitive. -/
theorem merged_into_refl_step_trans (log : List CommitData)
    (hnd : (commitKeys log).Nodup)
    (hne : ∀ cd ∈ log, cd.sha ≠ "")
    (hcl : ∀ cd ∈ log, ∀ p ∈ cd.parents, p ∈ commitKeys log) :
    (∀ x ∈ commitKeys log, is_merged_into log x x = some true)
  ∧ (∀ cd ∈ log, ∀ p ∈ cd.parents, is_merged_into log p cd.sha = some true)
  ∧ (∀ a b c, is_merged_into log a b = some true →
      is_merged_into log b c = some true → is_merged_into log a c = some true) := by
  have key : ∀ a b, a ≠ "" → b ≠ "" → a ∈ commitKeys log → Reach log a b →
      is_merged_into log a b = some true := by
    intro a b ha hb hak hr
    obtain ⟨v, hv, hiff⟩ := (isMergedIntoCases log hnd a b).2.2.1 ha hb hak
    rw [hv, hiff.mpr hr]
  have inv : ∀ a b, is_merged_into log a b = some true →
      a ≠ "" ∧ b ≠ "" ∧ (a = b ∨ (a ∈ commitKeys log ∧ Reach log a b)) := by
    intro a b h
    have hane : a ≠ "" := by
      intro ha
      rw [(isMergedIntoCases log hnd a b).1 (Or.inl ha)] at h
      exact absurd (Option.some.inj h) (by simp)
    have hbne : b ≠ "" := by
      intro hb
      rw [(isMergedIntoCases log hnd a b).1 (Or.inr hb)] at h
      exact absurd (Option.some.inj h) (by simp)
    refine ⟨hane, hbne, ?_⟩
    by_cases hab : a = b
    · exact Or.inl hab
    · by_cases hak : a ∈ commitKeys log
      · obtain ⟨v, hv, hiff⟩ := (isMergedIntoCases log hnd a b).2.2.1 hane hbne hak
        rw [hv] at h
        exact Or.inr ⟨hak, hiff.mp (Option.some.inj h)⟩
      · rw [(isMergedIntoCases log hnd a b).2.2.2 hane hbne hab hak] at h
        exact absurd h (by simp)
  refine ⟨?_, ?_, ?_⟩
  · intro x hx
    exact (isMergedIntoCases log hnd x x).2.1
      (mem_commitKeys_ne_empty hne hx) (mem_commitKeys_ne_empty hne hx) rfl
  · intro cd hcd p hp
    have hpk : p ∈ commitKeys log := hcl cd hcd p hp
    have hpne : p ≠ "" := mem_commitKeys_ne_empty hne hpk
    have hsne : cd.sha ≠ "" := hne cd hcd
    exact key p cd.sha hpne hsne hpk (Relation.ReflTransGen.single (mem_childrenOf hcd hp))
  · intro a b c h1 h2
    obtain ⟨hane, hbne, hcase1⟩ := inv a b h1
    rcases hcase1 with hab | ⟨hak, hr1⟩
    · exact hab ▸ h2
    · obtain ⟨_, hcne, hcase2⟩ := inv b c h2
      rcases hcase2 with hbc | ⟨_, hr2⟩
      · exact hbc ▸ h1
      · exact key a c hane hcne hak (hr1.trans hr2)

/-- Witness for `merged_into_refl_step_trans` on `demoLog`. -/
theorem merged_into_refl_step_trans_witness :
    ((commitKeys demoLog).Nodup ∧ (∀ cd ∈ demoLog, cd.sha ≠ "") ∧
      (∀ cd ∈ demoLog, ∀ p ∈ cd.parents, p ∈ commitKeys demoLog)) ∧
    is_merged_into demoLog "f" "f" = some true ∧
    is_merged_into demoLog "f" "m" = some true :=
  ⟨⟨by decide, by decide, by decide⟩,
    (merged_into_refl_step_trans demoLog (by decide) (by decide) (by decide)).1
      "f" (by decide),
    (merged_into_refl_step_trans demoLog (by decide) (by decide) (by decide)).2.1
      ⟨"m", ["f"]⟩ (by decide) "f" (by decide)⟩

theorem pyStrLtList_irrefl : ∀ l : List Char, pyStrLtList l l = false
  | [] => rfl
  | a :: as => by
    unfold pyStrLtList
    rw [if_neg (lt_irrefl _), if_pos rfl]
    exact pyStrLtList_irrefl as

theorem pyStrLtList_trans : ∀ {a b c : List Char},
    pyStrLtList a b = true → pyStrLtList b c = true → pyStrLtList a c = true := by
  intro a
  induction a with
  | nil =>
    intro b c h1 h2
    cases b with
    | nil => exact absurd h1 (by simp [pyStrLtList])
    | cons y ys =>
      cases c with
      | nil => exact absurd h2 (by simp [pyStrLtList])
      | cons z zs => rfl
  | cons x xs ih =>
    intro b c h1 h2
    cases b with
    | nil => exact absurd h1 (by simp [pyStrLtList])
    | cons y ys =>
      cases c with
      | nil => exact absurd h2 (by simp [pyStrLtList])
      | cons z zs =>
        unfold pyStrLtList at h1 h2 ⊢
        by_cases hxy : x.toNat < y.toNat
        · by_cases hyz : y.toNat < z.toNat
          · rw [if_pos (lt_trans hxy hyz)]
          · rw [if_neg hyz] at h2
            by_cases heyz : y.toNat = z.toNat
            · rw [if_pos (heyz ▸ hxy)]
            · rw [if_neg heyz] at h2
              exact absurd h2 (by simp)
        · rw [if_neg hxy] at h1
          by_cases hexy : x.toNat = y.toNat
          · rw [if_pos hexy] at h1
            by_cases hyz : y.toNat < z.toNat
            · rw [if_pos (hexy ▸ hyz)]
            · rw [if_neg hyz] at h2
              by_cases heyz : y.toNat = z.toNat
              · rw [if_pos heyz] at h2
                rw [if_neg (show ¬ x.toNat < z.toNat from heyz ▸ hxy),
                  if_pos (hexy.trans heyz)]
                exact ih h1 h2
              · rw [if_neg heyz] at h2
                exact absurd h2 (by simp)
          · rw [if_neg hexy] at h1
            exact absurd h1 (by simp)

theorem pyStrLtList_trichotomy : ∀ (a b : List Char),
    pyStrLtList a b = true ∨ a = b ∨ pyStrLtList b a = true := by
  intro a
  induction a with
  | nil =>
    intro b
    cases b with
    | nil => exact Or.inr (Or.inl rfl)
    | cons y ys => exact Or.inl rfl
  | cons x xs ih =>
    intro b
    cases b with
    | nil => exact Or.inr (Or.inr rfl)
    | cons y ys =>
      rcases Nat.lt_trichotomy x.toNat y.toNat with h | h | h
      · exact Or.inl (by unfold pyStrLtList; rw [if_pos h])
      · have hxy : x = y := Char.ext (UInt32.toNat.inj h)
        rcases ih ys with h' | h' | h'
        · exact Or.inl (by unfold pyStrLtList; rw [if_neg (h ▸ lt_irrefl _), if_pos h]; exact h')
        · exact Or.inr (Or.inl (by rw [hxy, h']))
        · refine Or.inr (Or.inr ?_)
          unfold pyStrLtList
          rw [if_neg (h ▸ lt_irrefl _), if_pos h.symm]
          exact h'
      · exact Or.inr (Or.inr (by unfold pyStrLtList; rw [if_pos h]))

theorem keyLt_irrefl (k : String × Bool) : ¬ keyLt k k := by
  rintro (h | ⟨_, h2, h3⟩)
  · rw [pyStrLt, pyStrLtList_irrefl] at h
    exact Bool.false_ne_true h
  · rw [h2] at h3
    exact Bool.false_ne_true h3

theorem keyLt_trans {a b c : String × Bool} (h1 : keyLt a b) (h2 : keyLt b c) : keyLt a c := by
  rcases h1 with h1 | ⟨e1, f1, t1⟩
  · rcases h2 with h2 | ⟨e2, _, _⟩
    · exact Or.inl (pyStrLtList_trans h1 h2)
    · exact Or.inl (e2 ▸ h1)
  · rcases h2 with h2 | ⟨e2, f2, t2⟩
    · exact Or.inl (e1 ▸ h2)
    · rw [t1] at f2
      exact absurd f2 (by simp)

theorem keyLt_trichotomy (a b : String × Bool) :
    keyLt a b ∨ (a.1 = b.1 ∧ a.2 = b.2) ∨ keyLt b a := by
  rcases pyStrLtList_trichotomy a.1.data b.1.data with h | h | h
  · exact Or.inl (Or.inl h)
  · have heq : a.1 = b.1 := String.ext h
    cases ha : a.2 <;> cases hb : b.2
    · exact Or.inr (Or.inl ⟨heq, rfl⟩)
    · exact Or.inl (Or.inr ⟨heq, ha, hb⟩)
    · exact Or.inr (Or.inr (Or.inr ⟨heq.symm, hb, ha⟩))
    · exact Or.inr (Or.inl ⟨heq, rfl⟩)
  · exact Or.inr (Or.inr (Or.inl h))

theorem pyMaxBy_mem (key : Ref → String × Bool) :
    ∀ (ms : List Ref) (first : Ref), pyMaxBy key first ms ∈ first :: ms := by
  intro ms
  induction ms with
  | nil =>
    intro first
    exact List.mem_singleton.mpr rfl
  | cons x xs ih =>
    intro first
    unfold pyMaxBy
    rw [List.foldl_cons]
    by_cases h : keyLt (key first) (key x)
    · rw [if_pos h]
      have hm := ih x
      unfold pyMaxBy at hm
      exact List.mem_cons_of_mem _ hm
    · rw [if_neg h]
      have hm := ih first
      unfold pyMaxBy at hm
      rcases List.mem_cons.mp hm with h' | h'
      · rw [h']
        exact List.mem_cons_self first (x :: xs)
      · exact List.mem_cons_of_mem _ (List.mem_cons_of_mem _ h')

theorem pyMaxBy_not_lt_acc (key : Ref → String × Bool) :
    ∀ (ms : List Ref) (first : Ref), ¬ keyLt (key (pyMaxBy key first ms)) (key first) := by
  intro ms
  induction ms with
  | nil =>
    intro first
    exact keyLt_irrefl _
  | cons x xs ih =>
    intro first
    unfold pyMaxBy
    rw [List.foldl_cons]
    by_cases h : keyLt (key first) (key x)
    · rw [if_pos h]
      intro hlt
      exact ih x (keyLt_trans hlt h)
    · rw [if_neg h]
      exact ih first

theorem pyMaxBy_not_lt (key : Ref → String × Bool) :
    ∀ (ms : List Ref) (first : Ref) (x : Ref), x ∈ first :: ms →
      ¬ keyLt (key (pyMaxBy key first ms)) (key x) := by
  intro ms
  induction ms with
  | nil =>
    intro first x hx
    have hex := List.mem_singleton.mp hx
    subst hex
    exact keyLt_irrefl _
  | cons y ys ih =>
    intro first x hx
    unfold pyMaxBy
    rw [List.foldl_cons]
    rcases List.mem_cons.mp hx with hxf | hxr
    · rw [hxf]
      by_cases h : keyLt (key first) (key y)
      · rw [if_pos h]
        intro hlt
        have hy := pyMaxBy_not_lt_acc key ys y
        unfold pyMaxBy at hy
        exact hy (keyLt_trans hlt h)
      · rw [if_neg h]
        have hacc := pyMaxBy_not_lt_acc key ys first
        unfold pyMaxBy at hacc
        exact hacc
    · rcases List.mem_cons.mp hxr with hxy | hxys
      · rw [hxy]
        by_cases h : keyLt (key first) (key y)
        · rw [if_pos h]
          have hy := pyMaxBy_not_lt_acc key ys y
          unfold pyMaxBy at hy
          exact hy
        · rw [if_neg h]
          intro hlt
          have hacc := pyMaxBy_not_lt_acc key ys first
          unfold pyMaxBy at hacc
          rcases keyLt_trichotomy (key first) (key y) with ht | ⟨he1, he2⟩ | ht
          · exact h ht
          · have hlt' : keyLt (key (List.foldl
                (fun acc x => if keyLt (key acc) (key x) then x else acc) first ys))
                (key first) := by
              rcases hlt with hl | ⟨e, f, t⟩
              · exact Or.inl (he1 ▸ hl)
              · exact Or.inr ⟨he1 ▸ e, f, he2 ▸ t⟩
            exact hacc hlt'
          · exact hacc (keyLt_trans hlt ht)
      · by_cases h : keyLt (key first) (key y)
        · rw [if_pos h]
          exact ih y x (List.mem_cons_of_mem _ hxys)
        · rw [if_neg h]
          exact ih first x (List.mem_cons_of_mem _ hxys)

theorem resolveShortcutAux_exact (shortcut : String) :
    ∀ (refs acc : List Ref),
      (∃ r ∈ refs, r.branch ≠ "" ∧ r.branch = shortcut) →
      ∃ r, resolveShortcutAux shortcut refs acc = some r ∧ r.branch = shortcut := by
  intro refs
  induction refs with
  | nil =>
    intro acc hex
    obtain ⟨x, hx, _⟩ := hex
    exact absurd hx (List.not_mem_nil x)
  | cons r rest ih =>
    intro acc hex
    obtain ⟨x, hx, hxne, hxeq⟩ := hex
    by_cases hb : r.branch = ""
    · have hxrest : x ∈ rest := by
        rcases List.mem_cons.mp hx with hxr | hxr
        · exact absurd (hxr ▸ hb) hxne
        · exact hxr
      obtain ⟨y, hy, hyeq⟩ := ih acc ⟨x, hxrest, hxne, hxeq⟩
      exact ⟨y, by rw [resolveShortcutAux, if_pos hb]; exact hy, hyeq⟩
    · by_cases hs : r.branch = shortcut
      · exact ⟨r, by rw [resolveShortcutAux, if_neg hb, if_pos hs], hs⟩
      · have hxrest : x ∈ rest := by
          rcases List.mem_cons.mp hx with hxr | hxr
          · exact absurd (hxr ▸ hxeq) hs
          · exact hxr
        by_cases hpre : pyStartsWith r.branch (shortcut ++ "/") = true
        · obtain ⟨y, hy, hyeq⟩ := ih (acc ++ [r]) ⟨x, hxrest, hxne, hxeq⟩
          exact ⟨y, by rw [resolveShortcutAux, if_neg hb, if_neg hs, if_pos hpre]; exact hy,
            hyeq⟩
        · obtain ⟨y, hy, hyeq⟩ := ih acc ⟨x, hxrest, hxne, hxeq⟩
          exact ⟨y, by rw [resolveShortcutAux, if_neg hb, if_neg hs, if_neg hpre]; exact hy,
            hyeq⟩

theorem resolveShortcutAux_noexact (shortcut : String) :
    ∀ (refs acc : List Ref),
      (∀ r ∈ refs, ¬(r.branch ≠ "" ∧ r.branch = shortcut)) →
      resolveShortcutAux shortcut refs acc =
        match acc ++ shortcutMatches refs shortcut with
        | [] => none
        | m :: ms => some (pyMaxBy refKey m ms) := by
  intro refs
  induction refs with
  | nil =>
    intro acc _
    have heq : shortcutMatches [] shortcut = [] := rfl
    rw [heq, List.append_nil]
    cases acc with
    | nil => rfl
    | cons m ms => rfl
  | cons r rest ih =>
    intro acc hne
    have hner : ¬(r.branch ≠ "" ∧ r.branch = shortcut) := hne r (List.mem_cons_self r rest)
    have hnerest : ∀ x ∈ rest, ¬(x.branch ≠ "" ∧ x.branch = shortcut) :=
      fun x hx => hne x (List.mem_cons_of_mem r hx)
    by_cases hb : r.branch = ""
    · have hfil : shortcutMatches (r :: rest) shortcut = shortcutMatches rest shortcut := by
        unfold shortcutMatches
        rw [List.filter_cons, if_neg (by simp [hb])]
      rw [resolveShortcutAux, if_pos hb, hfil]
      exact ih acc hnerest
    · have hs : ¬ r.branch = shortcut := fun h => hner ⟨hb, h⟩
      by_cases hpre : pyStartsWith r.branch (shortcut ++ "/") = true
      · have hfil : shortcutMatches (r :: rest) shortcut =
            r :: shortcutMatches rest shortcut := by
          unfold shortcutMatches
          rw [List.filter_cons, if_pos (by simp [hb, hpre])]
        rw [resolveShortcutAux, if_neg hb, if_neg hs, if_pos hpre, hfil, ih (acc ++ [r]) hnerest,
          List.append_assoc]
        rfl
      · have hfil : shortcutMatches (r :: rest) shortcut = shortcutMatches rest shortcut := by
          unfold shortcutMatches
          rw [List.filter_cons, if_neg (by simp [hpre])]
        rw [resolveShortcutAux, if_neg hb, if_neg hs, if_neg hpre, hfil]
        exact ih acc hnerest

/-- C4 (confirmed).  `resolve_shortcut` returns a ref whose branch name
equals the shortcut exactly when one exists; otherwise it returns the
prefix-match maximal by the pair (branch name, is-remote-tracking), and
not-found when there is no match; over `release/1.0` and `release/2.0` the
shortcut `release` resolves to `release/2.0`. -/
theorem resolve_shortcut_spec (refs : List Ref) (shortcut : String) :
    ((∃ r ∈ refs, r.branch ≠ "" ∧ r.branch = shortcut) →
      ∃ r, resolve_shortcut refs shortcut = some r ∧ r.branch = shortcut)
  ∧ ((∀ r ∈ refs, ¬(r.branch ≠ "" ∧ r.branch = shortcut)) →
      (shortcutMatches refs shortcut = [] → resolve_shortcut refs shortcut = none)
      ∧ ∀ m ms, shortcutMatches refs shortcut = m :: ms →
        ∃ r, resolve_shortcut refs shortcut = some r ∧ r ∈ m :: ms ∧
          ∀ x ∈ m :: ms, ¬ keyLt (refKey r) (refKey x))
  ∧ resolve_shortcut demoRefs "release" = some ⟨"refs/heads/release/2.0", "r2"⟩ := by
  refine ⟨?_, ?_, ?_⟩
  · intro hex
    exact resolveShortcutAux_exact shortcut refs [] hex
  · intro hne
    constructor
    · intro hnil
      unfold resolve_shortcut
      rw [resolveShortcutAux_noexact shortcut refs [] hne, List.nil_append, hnil]
    · intro m ms hfil
      unfold resolve_shortcut
      rw [resolveShortcutAux_noexact shortcut refs [] hne, List.nil_append, hfil]
      exact ⟨pyMaxBy refKey m ms, rfl, pyMaxBy_mem refKey ms m,
        fun x hx => pyMaxBy_not_lt refKey ms m x hx⟩
  · decide

/-- Witness for `resolve_shortcut_spec`'s prefix-match branch on `demoRefs`
with shortcut `release`. -/
theorem resolve_shortcut_spec_witness :
    ∃ r, resolve_shortcut demoRefs "release" = some r ∧
      r ∈ [(⟨"refs/heads/release/1.0", "r1"⟩ : Ref), ⟨"refs/heads/release/2.0", "r2"⟩] ∧
      ∀ x ∈ [(⟨"refs/heads/release/1.0", "r1"⟩ : Ref), ⟨"refs/heads/release/2.0", "r2"⟩],
        ¬ keyLt (refKey r) (refKey x) :=
  ((resolve_shortcut_spec demoRefs "release").2.1 (by decide)).2
    ⟨"refs/heads/release/1.0", "r1"⟩ [⟨"refs/heads/release/2.0", "r2"⟩] (by decide)

theorem find?_map_replace_self {k : String} {v : List String} :
    ∀ c : List (String × List String), (c.find? (fun p => p.1 = k)).isSome →
      (c.map (fun p => if p.1 = k then (k, v) else p)).find? (fun p => p.1 = k) =
        some (k, v) := by
  intro c
  induction c with
  | nil => intro h; simp at h
  | cons p t ih =>
    intro h
    by_cases hp : p.1 = k
    · rw [List.map_cons, if_pos hp]
      exact List.find?_cons_of_pos _ (by simp)
    · rw [List.map_cons, if_neg hp, List.find?_cons_of_neg _ (by simp [hp])]
      rw [List.find?_cons_of_neg _ (by simp [hp])] at h
      exact ih h

theorem cfgGet_dictAssign_self (c : List (String × List String)) (k : String)
    (v : List String) : cfgGet (dictAssign c k v) k = some v := by
  unfold dictAssign
  by_cases h : (c.find? (fun p => p.1 = k)).isSome
  · rw [if_pos h]
    unfold cfgGet
    rw [find?_map_replace_self c h]
    rfl
  · rw [if_neg h]
    unfold cfgGet
    have hfind : ∀ t : List (String × List String), ¬ (t.find? (fun p => p.1 = k)).isSome →
        (t ++ [(k, v)]).find? (fun p => p.1 = k) = some (k, v) := by
      intro t
      induction t with
      | nil =>
        intro _
        exact List.find?_cons_of_pos _ (by simp)
      | cons p tt ih =>
        intro ht
        have hp : ¬ p.1 = k := by
          intro hpk
          exact ht (by rw [List.find?_cons_of_pos _ (by simp [hpk])]; rfl)
        rw [List.cons_append, List.find?_cons_of_neg _ (by simp [hp])]
        apply ih
        intro hsome
        exact ht (by rwa [List.find?_cons_of_neg _ (by simp [hp])])
    rw [hfind c h]
    rfl

theorem cfgGet_dictAssign_other (c : List (String × List String)) (k k' : String)
    (v : List String) (hne : k' ≠ k) : cfgGet (dictAssign c k v) k' = cfgGet c k' := by
  have hmap : ∀ t : List (String × List String),
      (t.map (fun p => if p.1 = k then (k, v) else p)).find? (fun p => p.1 = k') =
        t.find? (fun p => p.1 = k') := by
    intro t
    induction t with
    | nil => rfl
    | cons p tt ih =>
      by_cases hp : p.1 = k
      · rw [List.map_cons, if_pos hp,
          List.find?_cons_of_neg _ (by simp [Ne.symm hne]),
          List.find?_cons_of_neg _ (by simp [hp, Ne.symm hne])]
        exact ih
      · rw [List.map_cons, if_neg hp]
        by_cases hp' : p.1 = k'
        · rw [List.find?_cons_of_pos _ (by simp [hp']),
            List.find?_cons_of_pos _ (by simp [hp'])]
        · rw [List.find?_cons_of_neg _ (by simp [hp']),
            List.find?_cons_of_neg _ (by simp [hp'])]
          exact ih
  have happ : ∀ t : List (String × List String),
      (t ++ [(k, v)]).find? (fun p => p.1 = k') = t.find? (fun p => p.1 = k') := by
    intro t
    induction t with
    | nil =>
      rw [List.nil_append, List.find?_cons_of_neg _ (by simp [Ne.symm hne])]
    | cons p tt ih =>
      rw [List.cons_append]
      by_cases hp' : p.1 = k'
      · rw [List.find?_cons_of_pos _ (by simp [hp']),
          List.find?_cons_of_pos _ (by simp [hp'])]
      · rw [List.find?_cons_of_neg _ (by simp [hp']),
          List.find?_cons_of_neg _ (by simp [hp'])]
        exact ih
  unfold dictAssign
  by_cases h : (c.find? (fun p => p.1 = k)).isSome
  · rw [if_pos h]
    unfold cfgGet
    rw [hmap c]
  · rw [if_neg h]
    unfold cfgGet
    rw [happ c]

theorem cfgGet_filter_out (c : List (String × List String)) (k : String) :
    cfgGet (c.filter (fun p => ¬ p.1 = k)) k = none := by
  unfold cfgGet
  induction c with
  | nil => rfl
  | cons p t ih =>
    by_cases hp : p.1 = k
    · rw [List.filter_cons, if_neg (by simp [hp])]
      exact ih
    · rw [List.filter_cons, if_pos (by simp [hp]),
        List.find?_cons_of_neg _ (by simp [hp])]
      exact ih

theorem cfgGet_filter_other (c : List (String × List String)) (k k' : String)
    (hne : k' ≠ k) : cfgGet (c.filter (fun p => ¬ p.1 = k)) k' = cfgGet c k' := by
  unfold cfgGet
  congr 1
  induction c with
  | nil => rfl
  | cons p t ih =>
    by_cases hp : p.1 = k
    · rw [List.filter_cons, if_neg (by simp [hp]),
        List.find?_cons_of_neg _ (by simp [hp, Ne.symm hne])]
      exact ih
    · rw [List.filter_cons, if_pos (by simp [hp])]
      by_cases hp' : p.1 = k'
      · rw [List.find?_cons_of_pos _ (by simp [hp']),
          List.find?_cons_of_pos _ (by simp [hp'])]
      · rw [List.find?_cons_of_neg _ (by simp [hp']),
          List.find?_cons_of_neg _ (by simp [hp'])]
        exact ih

/-- C10 (confirmed).  Each cache mutation of `GitConfigHolder` is exact
at the mutated key and framed everywhere else: `set`/`reset` leave exactly
`[v]` at `k`; `append` appends `v` to the previous list (empty when absent);
`unset` of a present key removes it; and every other key reads unchanged. -/
theorem gitConfigHolder_cache_spec (c : List (String × List String)) (k k' v : String)
    (hne : k' ≠ k) :
    cfgGet (holderSet c k v) k = some [v]
  ∧ cfgGet (holderReset c k v) k = some [v]
  ∧ cfgGet (holderAppend c k v) k = some ((cfgGet c k).getD [] ++ [v])
  ∧ cfgGet (holderSet c k v) k' = cfgGet c k'
  ∧ cfgGet (holderReset c k v) k' = cfgGet c k'
  ∧ cfgGet (holderAppend c k v) k' = cfgGet c k'
  ∧ (∀ c', holderUnset c k = some c' → cfgGet c' k = none ∧ cfgGet c' k' = cfgGet c k')
  ∧ ((cfgGet c k).isSome → ∃ c', holderUnset c k = some c') := by
  refine ⟨cfgGet_dictAssign_self c k [v], cfgGet_dictAssign_self c k [v],
    cfgGet_dictAssign_self c k _, cfgGet_dictAssign_other c k k' [v] hne,
    cfgGet_dictAssign_other c k k' [v] hne, cfgGet_dictAssign_other c k k' _ hne,
    ?_, ?_⟩
  · intro c' hc'
    unfold holderUnset at hc'
    by_cases h : (c.find? (fun p => p.1 = k)).isSome
    · rw [if_pos h] at hc'
      have hc'' := Option.some.inj hc'
      rw [← hc'']
      exact ⟨cfgGet_filter_out c k, cfgGet_filter_other c k k' hne⟩
    · rw [if_neg h] at hc'
      exact absurd hc' (by simp)
  · intro hsome
    unfold holderUnset
    have h : (c.find? (fun p => p.1 = k)).isSome := by
      unfold cfgGet at hsome
      exact Option.isSome_map' ▸ hsome
    rw [if_pos h]
    exact ⟨_, rfl⟩

/-- Witness for `gitConfigHolder_cache_spec` at a concrete two-key map. -/
theorem gitConfigHolder_cache_spec_witness :
    cfgGet (holderSet [("a", ["1"]), ("b", ["2"])] "a" "3") "a" = some ["3"]
  ∧ cfgGet (holderAppend [("a", ["1"]), ("b", ["2"])] "a" "3") "a" = some ["1", "3"]
  ∧ cfgGet (holderSet [("a", ["1"]), ("b", ["2"])] "a" "3") "b" = some ["2"] :=
  have h := gitConfigHolder_cache_spec [("a", ["1"]), ("b", ["2"])] "a" "b" "3" (by decide)
  ⟨h.1, h.2.2.1, h.2.2.2.1⟩

/-- C8 (code_bug).  Only the claim's explicit-sync arm exists, and only for
version-0 branches: a jflow-managed branch (non-zero version) derives
sync = false even when `branch.<name>.jflow.sync` is explicitly true, and
the autosync arm can never return true — every non-failing version-0
upstream read yields `None`, while the configuration that would resolve an
upstream (autosync on, legacy `merge` set) raises `AttributeError` inside
`Generic.sync`. -/
theorem generic_sync_bug :
    (∀ cfg name v, jflow_version cfg name = some v → v ≠ 0 →
        generic_sync cfg name = some false)
  ∧ (∀ cfg name, jflow_version cfg name = some 0 →
        readBool cfg (jfPath name "sync") false = some true →
        generic_sync cfg name = some true)
  ∧ (∀ cfg name uo, jflow_version cfg name = some 0 →
        generic_upstream cfg name = some uo → uo = none)
  ∧ generic_sync c8Cfg "b" = none
  ∧ generic_sync [(jfPath "b" "version", ["1"]), (jfPath "b" "sync", ["true"])] "b" =
      some false := by
  refine ⟨?_, ?_, ?_, by decide, by decide⟩
  · intro cfg name v hv hvne
    unfold generic_sync
    rw [hv]
    simp only [Option.bind_eq_bind, Option.some_bind]
    rw [if_pos hvne]
    rfl
  · intro cfg name hv0 hs
    unfold generic_sync
    rw [hv0]
    simp only [Option.bind_eq_bind, Option.some_bind]
    rw [if_neg (by simp), hs]
    simp
  · intro cfg name uo hv0 huo
    unfold generic_upstream at huo
    rw [hv0] at huo
    simp only [Option.bind_eq_bind, Option.some_bind] at huo
    rw [if_pos trivial] at huo
    by_cases hm : readStr cfg (branchPath name "merge") "" = ""
    · simp only [if_pos hm, Option.pure_def] at huo
      exact (Option.some.inj huo).symm
    · simp only [if_neg hm, Option.pure_def] at huo
      by_cases hbr : (RefName.mk (readStr cfg (branchPath name "merge") "")).branch = ""
      · simp only [if_pos hbr] at huo
        exact (Option.some.inj huo).symm
      · simp only [if_neg hbr] at huo
        exact absurd huo (by simp)

/-- Witness for `generic_sync_bug` at its version-0 explicit-sync arm. -/
theorem generic_sync_bug_witness :
    generic_sync [(jfPath "b" "sync", ["true"])] "b" = some true :=
  generic_sync_bug.2.1 [(jfPath "b" "sync", ["true"])] "b" (by decide) (by decide)

theorem pop_str_key (acc : List String) (r : RefName) :
    acc.filter (fun k => !(pyValEq (PyVal.pyStr k) (PyVal.pyRefName r.name))) = acc := by
  induction acc with
  | nil => rfl
  | cons a t ih =>
    have h : (!pyValEq (PyVal.pyStr a) (PyVal.pyRefName r.name)) = true := rfl
    rw [List.filter_cons, if_pos h, ih]

theorem foldl_pop_id (rs : List RefName) (acc : List String) :
    rs.foldl
      (fun a r => a.filter (fun k => !(pyValEq (PyVal.pyStr k) (PyVal.pyRefName r.name))))
      acc = acc := by
  induction rs generalizing acc with
  | nil => rfl
  | cons r t ih =>
    rw [List.foldl_cons, pop_str_key]
    exact ih acc

/-- C9 (code_bug).  The ownership pass of `Cache.branch_by_ref` cannot do
what the claim says.  Any configuration that makes a head's
`gen_related_refs()` produce a ref crashes the build — at the `b1`/`b2`
snapshot (`b1` a version-1 branch with `public = b2`) `Generic.public`
raises `AttributeError` — and whenever the build does succeed the pop loop
removes nothing, because the map keys are the `str` head names while the
generator would yield `RefName` objects, which never compare equal: every
successfully constructed map keeps exactly all head names. -/
theorem branch_ownership_bug :
    (∀ cfg refs keys, branch_by_ref_keys cfg refs = some keys →
        keys = (headRefs refs).map (fun h => h.name))
  ∧ branch_by_ref_keys c9Cfg c9Refs = none := by
  refine ⟨?_, by decide⟩
  intro cfg refs keys hkeys
  unfold branch_by_ref_keys at hkeys
  by_cases hall : (headRefs refs).all (fun h => !(h.branch == "")) = true
  · rw [if_pos hall] at hkeys
    match hmm : mapMO (fun h => gen_related_refs cfg h) (headRefs refs) with
    | none =>
      rw [hmm] at hkeys
      exact absurd hkeys (by simp)
    | some related =>
      rw [hmm] at hkeys
      have hk := Option.some.inj hkeys
      rw [← hk, foldl_pop_id]
  · rw [if_neg hall] at hkeys
    exact absurd hkeys (by simp)

/-- Witness for `branch_ownership_bug`: a successful build at a plain
config keeps the single head name as a key. -/
theorem branch_ownership_bug_witness :
    branch_by_ref_keys [] [⟨"refs/heads/b1", "s1"⟩] = some ["refs/heads/b1"] ∧
      ["refs/heads/b1"] = (headRefs [⟨"refs/heads/b1", "s1"⟩]).map (fun h => h.name) :=
  ⟨by decide,
    branch_ownership_bug.1 [] [⟨"refs/heads/b1", "s1"⟩] ["refs/heads/b1"] (by decide)⟩

/-- C5 (code_bug).  Reading a version-1 branch's upstream always raises
`AttributeError` — `self.cfg.jf.upstream.value` is a plain string with no
`ref` method — so neither the template value (`develop`) nor a direct
branch-level override (`release`) is ever returned, and the read never
consults templates at all; the template prefix cascade exists only inside
`jf start`, which resolves the matching templates (longest prefix last) to
`develop` for `feature/x` and writes the result to the branch-level key. -/
theorem branch_upstream_cascade_bug :
    (∀ cfg name, jflow_version cfg name = some 1 → generic_upstream cfg name = none)
  ∧ generic_upstream c5Cfg "feature/x" = none
  ∧ generic_upstream ((jfPath "feature/x" "upstream", ["release"]) :: c5Cfg) "feature/x" =
      none
  ∧ startUpstreamValue c5Cfg c5Refs "feature/x" "" = some "develop" := by
  refine ⟨?_, by decide, by decide, by decide⟩
  intro cfg name hv
  unfold generic_upstream
  rw [hv]
  simp only [Option.bind_eq_bind, Option.some_bind]
  rw [if_neg (by norm_num)]
  exact if_pos trivial

/-- Witness for `branch_upstream_cascade_bug` at the template scenario
config. -/
theorem branch_upstream_cascade_bug_witness :
    generic_upstream c5Cfg "feature/x" = none :=
  branch_upstream_cascade_bug.1 c5Cfg "feature/x" (by decide)

end Dsaflow

